import Mathlib

/-!
Verification of the batch generation pipeline in
`perf/sawtooth/sawtooth_workload/src/batch_gen.rs`.

The Rust code decodes length-delimited protobuf `Transaction` messages from a
byte source (`LengthDelimitedMessageSource::next`), groups them into `Batch`
values of at most `max_batch_size` transactions (`SignedBatchProducer::next_batch`),
and drives the producer to exhaustion, writing each batch to a sink
(`generate_signed_batches`).

Embedding choices:
- The `CodedInputStream` is a list of bytes (`List Nat`, each byte `< 256` in
  intended use); reading advances by returning the remaining suffix.
- The external protobuf library's `parse_from_bytes` for the phantom message
  type `T` is a static decode capability; it is passed as an explicit
  `parse : List Nat → Except ProtobufError T` argument, mirroring the Rust
  `T: Message + MessageStatic` bound.
- `read_raw_varint32` is the base-128 varint decoder of the protobuf wire
  format (at most 10 bytes, truncated to 32 bits), and `read_raw_bytes`
  errors when fewer bytes remain than requested, as in rust-protobuf.
- Serialization of an in-memory `BatchHeader` (`write_to_bytes`, an external
  protobuf operation whose round trip with `parse_from_bytes` is the
  library's contract) is modelled by a content-carrying `SerializedBatchHeader`.
- The `loop` of `generate_signed_batches` is modelled with explicit fuel:
  a `none` result means the loop was still running when the fuel ran out.
-/

deriving instance DecidableEq for Except

/-- Errors of the protobuf wire layer (modelled variants of rust-protobuf's
`ProtobufError` that this code can encounter). -/
inductive ProtobufError where
  | incorrectVarint
  | truncatedMessage
  | wireError
deriving DecidableEq

/-- Base-128 varint decoding loop of rust-protobuf: accumulates 7 bits per
byte, fails after 10 bytes without a terminating byte (`incorrectVarint`) or
when the stream ends mid-varint; the result is truncated to 32 bits. -/
def read_varint_loop : Nat → Nat → Nat → List Nat → Except ProtobufError (Nat × List Nat)
  | 0, _, _, _ => .error .incorrectVarint
  | _ + 1, _, _, [] => .error .truncatedMessage
  | fuel + 1, shift, acc, b :: rest =>
    let acc2 := acc + b % 128 * 2 ^ shift
    if b < 128 then .ok (acc2 % 2 ^ 32, rest)
    else read_varint_loop fuel (shift + 7) acc2 rest

/-- Reads one varint-encoded length from the head of the stream
(`CodedInputStream::read_raw_varint32`). -/
def read_raw_varint32 (bs : List Nat) : Except ProtobufError (Nat × List Nat) :=
  read_varint_loop 10 0 0 bs

/-- Reads exactly `count` bytes (`CodedInputStream::read_raw_bytes`); fails
with a truncation error when fewer bytes remain. -/
def read_raw_bytes (count : Nat) (bs : List Nat) : Except ProtobufError (List Nat × List Nat) :=
  if bs.length < count then .error .truncatedMessage
  else .ok (bs.take count, bs.drop count)

/-- `LengthDelimitedMessageSource<'a, T>`: the remaining bytes of the coded
input stream; `T` is the phantom message type parameter. -/
structure LengthDelimitedMessageSource (T : Type) where
  source : List Nat
deriving DecidableEq

/-- `LengthDelimitedMessageSource::new`. -/
def LengthDelimitedMessageSource.new (T : Type) (source : List Nat) :
    LengthDelimitedMessageSource T :=
  { source }

/-- `LengthDelimitedMessageSource::next`: reads up to `max_msgs` messages,
stopping early at end of stream; each message is a varint length prefix
followed by that many payload bytes, decoded by `parse`.  Any failure aborts
the whole call with the error, discarding messages decoded so far. -/
def LengthDelimitedMessageSource.next {T : Type}
    (parse : List Nat → Except ProtobufError T) :
    LengthDelimitedMessageSource T → Nat →
      Except ProtobufError (List T × LengthDelimitedMessageSource T)
  | s, 0 => .ok ([], s)
  | s, max_msgs + 1 =>
    if s.source.isEmpty then .ok ([], s)
    else
      match read_raw_varint32 s.source with
      | .error e => .error e
      | .ok (next_len, after_len) =>
        match read_raw_bytes next_len after_len with
        | .error e => .error e
        | .ok (buf, after_msg) =>
          match parse buf with
          | .error e => .error e
          | .ok msg =>
            match LengthDelimitedMessageSource.next parse ⟨after_msg⟩ max_msgs with
            | .error e => .error e
            | .ok (msgs, s2) => .ok (msg :: msgs, s2)

/-- `sawtooth_sdk::messages::transaction::Transaction`, restricted to the
fields this code touches: the serialized header, the identifying signature,
and the payload. -/
structure Transaction where
  header : List Nat
  header_signature : String
  payload : List Nat
deriving DecidableEq

/-- `Transaction::take_header_signature`, as used on a fresh clone in
`next_batch`: the observable result is just the signature (the clone the
field is taken out of is discarded). -/
def Transaction.take_header_signature (t : Transaction) : String :=
  t.header_signature

/-- `sawtooth_sdk::messages::batch::BatchHeader`, restricted to the
`transaction_ids` field this code sets. -/
structure BatchHeader where
  transaction_ids : List String
deriving DecidableEq

/-- Serialized form of a `BatchHeader`.  Protobuf serialization is external
to this repository; it is modelled by its content, so that serialize followed
by parse is the identity on the `transaction_ids` field — the round-trip
contract of the protobuf library. -/
structure SerializedBatchHeader where
  content : BatchHeader
deriving DecidableEq

/-- `BatchHeader::write_to_bytes` (its `unwrap` never fires on an in-memory
message). -/
def BatchHeader.write_to_bytes (h : BatchHeader) : SerializedBatchHeader :=
  { content := h }

/-- `protobuf::parse_from_bytes::<BatchHeader>` applied to serialized header
bytes, as done by the tests and by consumers of a `Batch`. -/
def parse_batch_header (s : SerializedBatchHeader) : BatchHeader :=
  s.content

/-- `sawtooth_sdk::messages::batch::Batch`, restricted to the fields this
code sets: the serialized header and the owned transactions. -/
structure Batch where
  header : SerializedBatchHeader
  transactions : List Transaction
deriving DecidableEq

/-- `type TransactionSource<'a> = LengthDelimitedMessageSource<'a, Transaction>`. -/
abbrev TransactionSource := LengthDelimitedMessageSource Transaction

/-- `BatchingError`. -/
inductive BatchingError where
  | MessageError (e : ProtobufError)
  | SigningError
deriving DecidableEq

/-- `SignedBatchProducer`. -/
structure SignedBatchProducer where
  transaction_source : TransactionSource
  max_batch_size : Nat
deriving DecidableEq

/-- `SignedBatchProducer::new`. -/
def SignedBatchProducer.new (source : List Nat) (max_batch_size : Nat) :
    SignedBatchProducer :=
  { transaction_source := ⟨source⟩, max_batch_size }

/-- `SignedBatchProducer::next_batch`: pulls up to `max_batch_size`
transactions; an empty pull signals exhaustion (`Ok(None)`); otherwise builds
a `BatchHeader` from the pulled transactions' signatures and wraps everything
in a `Batch`.  Decode errors are wrapped in `BatchingError::MessageError`. -/
def SignedBatchProducer.next_batch (parse : List Nat → Except ProtobufError Transaction)
    (p : SignedBatchProducer) :
    Except BatchingError (Option Batch × SignedBatchProducer) :=
  match p.transaction_source.next parse p.max_batch_size with
  | .error err => .error (.MessageError err)
  | .ok (txns, src2) =>
    if txns.length = 0 then
      .ok (none, { p with transaction_source := src2 })
    else
      let txn_ids := txns.map Transaction.take_header_signature
      let batch_header : BatchHeader := { transaction_ids := txn_ids }
      let batch : Batch :=
        { header := batch_header.write_to_bytes, transactions := txns }
      .ok (some batch, { p with transaction_source := src2 })

/-- `generate_signed_batches`: drives the producer in a loop, writing every
produced batch to the sink `write_batch` (the sink state `W` models the
writer; a write failure is wrapped in `MessageError`).  The loop is modelled
with fuel: `none` means the loop had not finished within `fuel` iterations. -/
def generate_signed_batches {W : Type}
    (parse : List Nat → Except ProtobufError Transaction)
    (write_batch : W → Batch → Except ProtobufError W) :
    Nat → SignedBatchProducer → W → Option (Except BatchingError W)
  | 0, _, _ => none
  | fuel + 1, producer, writer =>
    match producer.next_batch parse with
    | .ok (some batch, producer2) =>
      match write_batch writer batch with
      | .error err => some (.error (.MessageError err))
      | .ok writer2 => generate_signed_batches parse write_batch fuel producer2 writer2
    | .ok (none, _) => some (.ok writer)
    | .error err => some (.error err)

/-! Specification-side vocabulary: the wire-format encoder describing valid
length-delimited input (spec §6), chunking, and concatenation. -/

/-- Base-128 varint encoding, fuelled so that it is structurally recursive
(`n + 1` units of fuel always suffice, see `varint_encode_aux_irrel`). -/
def varint_encode_aux : Nat → Nat → List Nat
  | 0, _ => []
  | fuel + 1, n =>
    if n < 128 then [n] else (n % 128 + 128) :: varint_encode_aux fuel (n / 128)

/-- Base-128 varint encoding of `n`, the wire format's length prefix. -/
def varint_encode (n : Nat) : List Nat :=
  varint_encode_aux (n + 1) n

/-- One length-delimited record: varint length prefix followed by the
encoded payload (spec §6 `record := varint_length payload_bytes(length)`). -/
def encode_message {T : Type} (enc : T → List Nat) (t : T) : List Nat :=
  varint_encode (enc t).length ++ enc t

/-- A whole valid input stream: the concatenation of the records of `ts`
(spec §6 `stream := record*`). -/
def encode_stream {T : Type} (enc : T → List Nat) : List T → List Nat
  | [] => []
  | t :: ts => encode_message enc t ++ encode_stream enc ts

/-- Concatenation of a list of lists (emission-order flattening). -/
def listJoin {α : Type} : List (List α) → List α
  | [] => []
  | l :: ls => l ++ listJoin ls

/-- Partition of a list into consecutive chunks of size `m` (the last chunk
may be shorter); for `m ≥ 1` this is the batch partition the producer
realizes. -/
def chunkList {α : Type} (m : Nat) : List α → List (List α)
  | [] => []
  | x :: xs => (x :: xs.take (m - 1)) :: chunkList m (xs.drop (m - 1))
termination_by l => l.length
decreasing_by
  simp only [List.length_drop, List.length_cons]
  omega

/-- The batch `next_batch` builds from a pulled list of transactions. -/
def mkBatchOf (txns : List Transaction) : Batch :=
  { header := BatchHeader.write_to_bytes
      { transaction_ids := txns.map Transaction.take_header_signature },
    transactions := txns }

/-- A sink that records every written batch in order and never fails: used to
observe the output of `generate_signed_batches`. -/
def collect_writer : List Batch → Batch → Except ProtobufError (List Batch) :=
  fun w b => .ok (w ++ [b])

/-- Decides whether decoding one record at the head of `bs` fails: a
malformed/truncated length prefix, a payload shorter than declared, or a
payload `parse` rejects. -/
def frame_decode_fails {T : Type} (parse : List Nat → Except ProtobufError T)
    (bs : List Nat) : Bool :=
  match read_raw_varint32 bs with
  | .error _ => true
  | .ok (n, rest) =>
    match read_raw_bytes n rest with
    | .error _ => true
    | .ok (buf, _) =>
      match parse buf with
      | .error _ => true
      | .ok _ => false

/-- Detects a `SigningError` result of `next_batch`-shaped computations. -/
def batching_result_signing {α : Type} : Except BatchingError α → Bool
  | .error .SigningError => true
  | _ => false

/-- Detects a `SigningError` outcome of a fuelled `generate_signed_batches`
run. -/
def run_raises_signing {W : Type} : Option (Except BatchingError W) → Bool
  | some (.error .SigningError) => true
  | _ => false

/-! Concrete demonstration codec used to instantiate hypotheses: three fixed
transactions with one-byte encodings, mirroring the `sig1`/`sig2`/`sig3`
transactions of the Rust tests. -/

/-- A transaction carrying only its identifying signature. -/
def demoTxn (sig : String) : Transaction :=
  { header := [], header_signature := sig, payload := [] }

/-- One-byte encoding for the three demonstration transactions. -/
def demoEnc (t : Transaction) : List Nat :=
  if t = demoTxn "sig1" then [1]
  else if t = demoTxn "sig2" then [2]
  else if t = demoTxn "sig3" then [3]
  else []

/-- Decoder matching `demoEnc` on the three demonstration transactions. -/
def demoParse (bs : List Nat) : Except ProtobufError Transaction :=
  if bs = [1] then .ok (demoTxn "sig1")
  else if bs = [2] then .ok (demoTxn "sig2")
  else if bs = [3] then .ok (demoTxn "sig3")
  else .error .wireError

/-- The three demonstration transactions, in the order of the Rust tests. -/
def demoTs : List Transaction :=
  [demoTxn "sig1", demoTxn "sig2", demoTxn "sig3"]

/-- A sink that rejects every write. -/
def failing_writer : Unit → Batch → Except ProtobufError Unit :=
  fun _ _ => .error .wireError

/-! Fuel irrelevance and wire-format correctness of the varint encoder against
the code's decoder. -/

theorem varint_encode_aux_irrel : ∀ f1 f2 n, n < f1 → n < f2 →
    varint_encode_aux f1 n = varint_encode_aux f2 n := by
  intro f1
  induction f1 with
  | zero => intro f2 n h1; omega
  | succ f1 ih =>
    intro f2 n h1 h2
    cases f2 with
    | zero => omega
    | succ f2 =>
      simp only [varint_encode_aux]
      by_cases h : n < 128
      · simp [h]
      · have hdiv : n / 128 < n := Nat.div_lt_self (by omega) (by omega)
        simp only [h, if_false]
        rw [ih f2 (n / 128) (by omega) (by omega)]

theorem varint_encode_unfold (n : Nat) :
    varint_encode n =
      if n < 128 then [n] else (n % 128 + 128) :: varint_encode (n / 128) := by
  show varint_encode_aux (n + 1) n = _
  simp only [varint_encode_aux]
  by_cases h : n < 128
  · simp [h]
  · have hdiv : n / 128 < n := Nat.div_lt_self (by omega) (by omega)
    simp only [h, if_false]
    rw [varint_encode_aux_irrel n (n / 128 + 1) (n / 128) (by omega) (by omega)]
    rfl

theorem varint_encode_ne_nil (n : Nat) : varint_encode n ≠ [] := by
  rw [varint_encode_unfold]
  split <;> simp

theorem varint_encode_length_le : ∀ k n, n < 2 ^ (7 * (k + 1)) →
    (varint_encode n).length ≤ k + 1 := by
  intro k
  induction k with
  | zero =>
    intro n hn
    rw [varint_encode_unfold]
    have h128 : n < 128 := by norm_num at hn; omega
    simp [h128]
  | succ k ih =>
    intro n hn
    rw [varint_encode_unfold]
    by_cases h : n < 128
    · simp [h]
    · simp only [h, if_false, List.length_cons]
      have hpow : 2 ^ (7 * (k + 1 + 1)) = 2 ^ (7 * (k + 1)) * 128 := by
        rw [show 7 * (k + 1 + 1) = 7 * (k + 1) + 7 by ring, pow_add]
        norm_num
      have hdiv : n / 128 < 2 ^ (7 * (k + 1)) := by
        rw [Nat.div_lt_iff_lt_mul (by norm_num : 0 < 128)]
        calc n < 2 ^ (7 * (k + 1 + 1)) := hn
          _ = 2 ^ (7 * (k + 1)) * 128 := hpow
      have := ih (n / 128) hdiv
      omega

theorem read_varint_loop_encode : ∀ fuel n, (varint_encode n).length ≤ fuel →
    ∀ shift acc rest,
      read_varint_loop fuel shift acc (varint_encode n ++ rest) =
        .ok ((acc + n * 2 ^ shift) % 2 ^ 32, rest) := by
  intro fuel
  induction fuel with
  | zero =>
    intro n hn
    have := varint_encode_ne_nil n
    have : 0 < (varint_encode n).length := List.length_pos.mpr this
    omega
  | succ fuel ih =>
    intro n hn shift acc rest
    by_cases h : n < 128
    · rw [varint_encode_unfold, if_pos h]
      simp only [List.cons_append, List.nil_append, List.append_eq, read_varint_loop]
      rw [if_pos h, Nat.mod_eq_of_lt h]
    · rw [varint_encode_unfold, if_neg h] at hn ⊢
      simp only [List.cons_append, List.append_eq, read_varint_loop]
      rw [if_neg (by omega : ¬ n % 128 + 128 < 128)]
      have hlen : (varint_encode (n / 128)).length ≤ fuel := by
        simp only [List.length_cons] at hn; omega
      rw [ih (n / 128) hlen (shift + 7) (acc + (n % 128 + 128) % 128 * 2 ^ shift) rest]
      congr 2
      have hmod : (n % 128 + 128) % 128 = n % 128 := by omega
      rw [hmod]
      have harith : n % 128 * 2 ^ shift + n / 128 * 2 ^ (shift + 7) = n * 2 ^ shift := by
        have h1 : 2 ^ (shift + 7) = 2 ^ shift * 128 := by rw [pow_add]; norm_num
        rw [h1]
        conv_rhs => rw [← Nat.mod_add_div n 128]
        ring
      omega

theorem read_raw_varint32_encode (n : Nat) (hn : n < 2 ^ 32) (rest : List Nat) :
    read_raw_varint32 (varint_encode n ++ rest) = .ok (n, rest) := by
  have hlen : (varint_encode n).length ≤ 10 := by
    have h5 : (varint_encode n).length ≤ 5 := by
      apply varint_encode_length_le 4
      calc n < 2 ^ 32 := hn
        _ ≤ 2 ^ (7 * (4 + 1)) := by norm_num
    omega
  unfold read_raw_varint32
  rw [read_varint_loop_encode 10 n hlen 0 0 rest]
  congr 1
  rw [pow_zero, mul_one, Nat.zero_add, Nat.mod_eq_of_lt hn]

theorem read_raw_bytes_exact (buf rest : List Nat) :
    read_raw_bytes buf.length (buf ++ rest) = .ok (buf, rest) := by
  have h : ¬ (buf ++ rest).length < buf.length := by
    simp [List.length_append]
  rw [read_raw_bytes, if_neg h, List.take_left, List.drop_left]

/-! Behaviour of `LengthDelimitedMessageSource.next` on well-formed streams. -/

theorem ldms_next_nil_source {T : Type} (parse : List Nat → Except ProtobufError T)
    (k : Nat) :
    LengthDelimitedMessageSource.next parse ⟨[]⟩ k = .ok ([], ⟨[]⟩) := by
  cases k <;> simp [LengthDelimitedMessageSource.next]

theorem ldms_next_cons {T : Type} (parse : List Nat → Except ProtobufError T)
    (enc : T → List Nat) (t : T) (rest : List Nat) (k : Nat)
    (hp : parse (enc t) = .ok t) (hl : (enc t).length < 2 ^ 32) :
    LengthDelimitedMessageSource.next parse ⟨encode_message enc t ++ rest⟩ (k + 1) =
      Except.map (fun p => (t :: p.1, p.2))
        (LengthDelimitedMessageSource.next parse ⟨rest⟩ k) := by
  have hassoc : encode_message enc t ++ rest =
      varint_encode (enc t).length ++ (enc t ++ rest) := by
    unfold encode_message
    rw [List.append_assoc]
  have hne : (encode_message enc t ++ rest).isEmpty = false := by
    rw [hassoc]
    cases h : varint_encode (enc t).length with
    | nil => exact absurd h (varint_encode_ne_nil _)
    | cons a l => simp [h]
  simp only [LengthDelimitedMessageSource.next, hne, Bool.false_eq_true, if_false]
  rw [hassoc]
  simp only [read_raw_varint32_encode (enc t).length hl, read_raw_bytes_exact, hp]
  cases h : LengthDelimitedMessageSource.next parse ⟨rest⟩ k with
  | error e => simp [Except.map]
  | ok v =>
    obtain ⟨msgs, s2⟩ := v
    simp [Except.map]

theorem ldms_next_encode_le {T : Type} (parse : List Nat → Except ProtobufError T)
    (enc : T → List Nat) :
    ∀ (ts : List T) (k : Nat) (rest : List Nat),
      k ≤ ts.length →
      (∀ t ∈ ts, parse (enc t) = .ok t) →
      (∀ t ∈ ts, (enc t).length < 2 ^ 32) →
      LengthDelimitedMessageSource.next parse ⟨encode_stream enc ts ++ rest⟩ k =
        .ok (ts.take k, ⟨encode_stream enc (ts.drop k) ++ rest⟩) := by
  intro ts
  induction ts with
  | nil =>
    intro k rest hk _ _
    have hk0 : k = 0 := by simpa using hk
    subst hk0
    simp [LengthDelimitedMessageSource.next, encode_stream]
  | cons t ts ih =>
    intro k rest hk hp hl
    cases k with
    | zero => simp [LengthDelimitedMessageSource.next]
    | succ k =>
      have hstream : encode_stream enc (t :: ts) ++ rest =
          encode_message enc t ++ (encode_stream enc ts ++ rest) := by
        simp [encode_stream, List.append_assoc]
      rw [hstream, ldms_next_cons parse enc t _ k (hp t (by simp)) (hl t (by simp))]
      rw [ih k rest (by simpa using hk) (fun x hx => hp x (by simp [hx]))
        (fun x hx => hl x (by simp [hx]))]
      simp [Except.map]

theorem ldms_next_encode_ge {T : Type} (parse : List Nat → Except ProtobufError T)
    (enc : T → List Nat) :
    ∀ (ts : List T) (k : Nat) (rest : List Nat),
      ts.length ≤ k →
      (∀ t ∈ ts, parse (enc t) = .ok t) →
      (∀ t ∈ ts, (enc t).length < 2 ^ 32) →
      LengthDelimitedMessageSource.next parse ⟨encode_stream enc ts ++ rest⟩ k =
        Except.map (fun p => (ts ++ p.1, p.2))
          (LengthDelimitedMessageSource.next parse ⟨rest⟩ (k - ts.length)) := by
  intro ts
  induction ts with
  | nil =>
    intro k rest _ _ _
    simp only [encode_stream, List.nil_append, List.length_nil, Nat.sub_zero]
    cases h : LengthDelimitedMessageSource.next parse ⟨rest⟩ k with
    | error e => simp [Except.map]
    | ok v =>
      obtain ⟨msgs, s2⟩ := v
      simp [Except.map]
  | cons t ts ih =>
    intro k rest hk hp hl
    cases k with
    | zero => simp at hk
    | succ k =>
      have hstream : encode_stream enc (t :: ts) ++ rest =
          encode_message enc t ++ (encode_stream enc ts ++ rest) := by
        simp [encode_stream, List.append_assoc]
      rw [hstream, ldms_next_cons parse enc t _ k (hp t (by simp)) (hl t (by simp))]
      rw [ih k rest (by simpa using hk) (fun x hx => hp x (by simp [hx]))
        (fun x hx => hl x (by simp [hx]))]
      have hsub : k + 1 - (t :: ts).length = k - ts.length := by
        simp
      rw [hsub]
      cases h : LengthDelimitedMessageSource.next parse ⟨rest⟩ (k - ts.length) with
      | error e => simp [Except.map]
      | ok v =>
        obtain ⟨msgs, s2⟩ := v
        simp [Except.map]

theorem ldms_next_encode {T : Type} (parse : List Nat → Except ProtobufError T)
    (enc : T → List Nat) (ts : List T) (k : Nat)
    (hp : ∀ t ∈ ts, parse (enc t) = .ok t)
    (hl : ∀ t ∈ ts, (enc t).length < 2 ^ 32) :
    LengthDelimitedMessageSource.next parse ⟨encode_stream enc ts⟩ k =
      .ok (ts.take k, ⟨encode_stream enc (ts.drop k)⟩) := by
  rcases le_or_lt k ts.length with h | h
  · have := ldms_next_encode_le parse enc ts k [] h hp hl
    simpa using this
  · have := ldms_next_encode_ge parse enc ts k [] (le_of_lt h) hp hl
    rw [ldms_next_nil_source] at this
    simp only [Except.map] at this
    rw [List.take_of_length_le (le_of_lt h), List.drop_eq_nil_of_le (le_of_lt h)]
    simpa [encode_stream] using this

/-! Behaviour of `next_batch` and of the drive loop on well-formed streams. -/

theorem next_batch_encode_nil (parse : List Nat → Except ProtobufError Transaction)
    (m : Nat) :
    SignedBatchProducer.next_batch parse (SignedBatchProducer.new [] m) =
      .ok (none, SignedBatchProducer.new [] m) := by
  unfold SignedBatchProducer.next_batch
  rw [show (SignedBatchProducer.new [] m).transaction_source = ⟨[]⟩ from rfl,
    show (SignedBatchProducer.new [] m).max_batch_size = m from rfl,
    ldms_next_nil_source]
  rfl

theorem next_batch_encode_cons (parse : List Nat → Except ProtobufError Transaction)
    (enc : Transaction → List Nat) (ts : List Transaction)
    (m : Nat) (hm : 1 ≤ m) (hts : ts ≠ [])
    (hp : ∀ t ∈ ts, parse (enc t) = .ok t)
    (hl : ∀ t ∈ ts, (enc t).length < 2 ^ 32) :
    SignedBatchProducer.next_batch parse (SignedBatchProducer.new (encode_stream enc ts) m) =
      .ok (some (mkBatchOf (ts.take m)),
        SignedBatchProducer.new (encode_stream enc (ts.drop m)) m) := by
  unfold SignedBatchProducer.next_batch
  rw [show (SignedBatchProducer.new (encode_stream enc ts) m).transaction_source =
      ⟨encode_stream enc ts⟩ from rfl,
    show (SignedBatchProducer.new (encode_stream enc ts) m).max_batch_size = m from rfl,
    ldms_next_encode parse enc ts m hp hl]
  have hlen : ¬ (ts.take m).length = 0 := by
    rw [List.length_take]
    cases ts with
    | nil => exact absurd rfl hts
    | cons a l => simp only [List.length_cons]; omega
  simp only [if_neg hlen]
  rfl

theorem chunkList_cons_eq {α : Type} (m : Nat) (hm : 1 ≤ m) (x : α) (xs : List α) :
    chunkList m (x :: xs) = (x :: xs).take m :: chunkList m ((x :: xs).drop m) := by
  obtain ⟨m', rfl⟩ : ∃ m', m = m' + 1 := ⟨m - 1, by omega⟩
  simp [chunkList, List.take_succ_cons, List.drop_succ_cons]

theorem generate_run (parse : List Nat → Except ProtobufError Transaction)
    (enc : Transaction → List Nat) (m : Nat) (hm : 1 ≤ m) :
    ∀ (fuel : Nat) (ts : List Transaction) (acc : List Batch),
      ts.length < fuel →
      (∀ t ∈ ts, parse (enc t) = .ok t) →
      (∀ t ∈ ts, (enc t).length < 2 ^ 32) →
      generate_signed_batches parse collect_writer fuel
          (SignedBatchProducer.new (encode_stream enc ts) m) acc =
        some (.ok (acc ++ (chunkList m ts).map mkBatchOf)) := by
  intro fuel
  induction fuel with
  | zero => intro ts acc h _ _; omega
  | succ fuel ih =>
    intro ts acc hlt hp hl
    cases ts with
    | nil =>
      simp only [encode_stream, generate_signed_batches]
      rw [next_batch_encode_nil parse m]
      simp [chunkList]
    | cons t ts' =>
      simp only [generate_signed_batches]
      rw [next_batch_encode_cons parse enc (t :: ts') m hm (by simp) hp hl]
      simp only [collect_writer]
      rw [ih ((t :: ts').drop m) (acc ++ [mkBatchOf ((t :: ts').take m)])
        (by
          simp only [List.length_cons] at hlt
          simp only [List.length_drop, List.length_cons]
          omega)
        (fun x hx => hp x (List.drop_subset _ _ hx))
        (fun x hx => hl x (List.drop_subset _ _ hx))]
      rw [chunkList_cons_eq m hm t ts']
      simp [List.append_assoc]

/-! Arithmetic of the chunk partition. -/

theorem listJoin_chunkList {α : Type} (m : Nat) :
    ∀ l : List α, listJoin (chunkList m l) = l := by
  intro l
  induction l using chunkList.induct m with
  | case1 => simp [chunkList, listJoin]
  | case2 x xs ih =>
    simp only [chunkList, listJoin, ih]
    simp [List.take_append_drop]

theorem listJoin_map_map {α β : Type} (f : α → β) :
    ∀ ll : List (List α), listJoin (ll.map (List.map f)) = (listJoin ll).map f := by
  intro ll
  induction ll with
  | nil => simp [listJoin]
  | cons l ls ih => simp [listJoin, ih]

theorem chunkList_eq_nil_iff {α : Type} (m : Nat) (l : List α) :
    chunkList m l = [] ↔ l = [] := by
  cases l with
  | nil => simp [chunkList]
  | cons x xs => simp [chunkList]

theorem chunkList_length (m : Nat) (hm : 1 ≤ m) {α : Type} :
    ∀ l : List α, (chunkList m l).length = (l.length + m - 1) / m := by
  intro l
  induction l using chunkList.induct m with
  | case1 =>
    simp only [chunkList, List.length_nil, List.length]
    rw [Nat.div_eq_of_lt (by omega)]
  | case2 x xs ih =>
    simp only [chunkList, List.length_cons, ih, List.length_drop]
    rcases le_or_lt (xs.length + 1) m with h | h
    · have h1 : xs.length - (m - 1) = 0 := by omega
      rw [h1]
      have h2 : (0 + m - 1) / m = 0 := Nat.div_eq_of_lt (by omega)
      rw [h2]
      have h3 : xs.length + 1 + m - 1 = xs.length + m := by omega
      rw [h3, Nat.add_div_right _ (by omega), Nat.div_eq_of_lt (by omega)]
    · have h1 : xs.length - (m - 1) + m - 1 = (xs.length - m) + m := by omega
      have h2 : xs.length + 1 + m - 1 = xs.length + m := by omega
      rw [h1, h2, Nat.add_div_right _ (by omega), Nat.add_div_right _ (by omega)]
      have h3 : xs.length = (xs.length - m) + m := by omega
      conv_rhs => rw [h3, Nat.add_div_right _ (by omega)]

theorem chunkList_get?_length (m : Nat) (hm : 1 ≤ m) {α : Type} :
    ∀ (l : List α) (i : Nat), i + 1 < (chunkList m l).length →
      ∃ c, (chunkList m l).get? i = some c ∧ c.length = m := by
  intro l
  induction l using chunkList.induct m with
  | case1 => intro i h; simp [chunkList] at h
  | case2 x xs ih =>
    intro i h
    simp only [chunkList, List.length_cons] at h
    cases i with
    | zero =>
      have hrest : xs.drop (m - 1) ≠ [] := by
        intro hnil
        rw [hnil] at h
        simp [chunkList] at h
      have hxs : m - 1 ≤ xs.length := by
        by_contra hc
        push_neg at hc
        exact hrest (List.drop_eq_nil_of_le (by omega))
      refine ⟨x :: xs.take (m - 1), ?_, ?_⟩
      · simp [chunkList]
      · simp only [List.length_cons, List.length_take]
        omega
    | succ i =>
      obtain ⟨c, hc, hcl⟩ := ih i (by omega)
      refine ⟨c, ?_, hcl⟩
      simp only [chunkList, List.get?_cons_succ]
      exact hc

theorem chunkList_last?_length (m : Nat) (hm : 1 ≤ m) {α : Type} :
    ∀ (l : List α), 0 < (chunkList m l).length →
      ∃ c, (chunkList m l).get? ((chunkList m l).length - 1) = some c ∧
        c.length = if l.length % m = 0 then m else l.length % m := by
  intro l
  induction l using chunkList.induct m with
  | case1 => intro h; simp [chunkList] at h
  | case2 x xs ih =>
    intro h
    by_cases hrest : xs.drop (m - 1) = []
    · have hxs : xs.length ≤ m - 1 := by
        by_contra hc
        push_neg at hc
        have := List.drop_eq_nil_iff.mp hrest
        omega
      refine ⟨x :: xs.take (m - 1), ?_, ?_⟩
      · simp [chunkList, hrest]
      · simp only [List.length_cons, List.length_take]
        have htake : min (m - 1) xs.length = xs.length := by omega
        rw [htake]
        rcases eq_or_lt_of_le hxs with heq | hlt
        · have hsum : xs.length + 1 = m := by omega
          rw [hsum, Nat.mod_self, if_pos rfl]
        · have hmod : (xs.length + 1) % m = xs.length + 1 :=
            Nat.mod_eq_of_lt (by omega)
          rw [hmod, if_neg (by omega)]
    · have hlen : 0 < (chunkList m (xs.drop (m - 1))).length := by
        rcases Nat.eq_zero_or_pos (chunkList m (xs.drop (m - 1))).length with h0 | h0
        · exact absurd ((chunkList_eq_nil_iff m _).mp (List.length_eq_zero.mp h0)) hrest
        · exact h0
      have hxs : m - 1 < xs.length := by
        by_contra hc
        push_neg at hc
        exact hrest (List.drop_eq_nil_of_le hc)
      obtain ⟨c, hc, hcl⟩ := ih hlen
      have hmod : (xs.drop (m - 1)).length % m = (xs.length + 1) % m := by
        rw [List.length_drop]
        have hsplit : xs.length + 1 = (xs.length - (m - 1)) + m := by omega
        rw [hsplit, Nat.add_mod_right]
      refine ⟨c, ?_, ?_⟩
      · simp only [chunkList, List.length_cons]
        have hidx : (chunkList m (xs.drop (m - 1))).length + 1 - 1 =
            ((chunkList m (xs.drop (m - 1))).length - 1) + 1 := by omega
        rw [hidx, List.get?_cons_succ]
        exact hc
      · simp only [List.length_cons]
        rw [← hmod]
        exact hcl

/-! Structural facts about `next` and `next_batch` on arbitrary inputs. -/

theorem ldms_next_length_le {T : Type} (parse : List Nat → Except ProtobufError T) :
    ∀ (k : Nat) (s s' : LengthDelimitedMessageSource T) (msgs : List T),
      LengthDelimitedMessageSource.next parse s k = .ok (msgs, s') →
      msgs.length ≤ k := by
  intro k
  induction k with
  | zero =>
    intro s s' msgs h
    simp only [LengthDelimitedMessageSource.next] at h
    simp only [Except.ok.injEq, Prod.mk.injEq] at h
    obtain ⟨h1, _⟩ := h
    subst h1
    simp
  | succ k ih =>
    intro s s' msgs h
    simp only [LengthDelimitedMessageSource.next] at h
    split at h
    · simp only [Except.ok.injEq, Prod.mk.injEq] at h
      obtain ⟨h1, _⟩ := h
      subst h1
      simp
    · split at h
      · simp at h
      · split at h
        · simp at h
        · split at h
          · simp at h
          · split at h
            · simp at h
            · rename_i heq
              simp only [Except.ok.injEq, Prod.mk.injEq] at h
              obtain ⟨h1, _⟩ := h
              subst h1
              simp only [List.length_cons]
              have := ih _ _ _ heq
              omega

theorem ldms_next_ok_nil {T : Type} (parse : List Nat → Except ProtobufError T)
    (k : Nat) (s s' : LengthDelimitedMessageSource T)
    (h : LengthDelimitedMessageSource.next parse s k = .ok ([], s')) :
    s' = s ∧ (k = 0 ∨ s.source = []) := by
  cases k with
  | zero =>
    simp only [LengthDelimitedMessageSource.next] at h
    simp only [Except.ok.injEq, Prod.mk.injEq] at h
    exact ⟨h.2.symm, Or.inl rfl⟩
  | succ k =>
    simp only [LengthDelimitedMessageSource.next] at h
    split at h
    · rename_i he
      simp only [Except.ok.injEq, Prod.mk.injEq] at h
      refine ⟨h.2.symm, Or.inr ?_⟩
      simpa [List.isEmpty_iff] using he
    · split at h
      · simp at h
      · split at h
        · simp at h
        · split at h
          · simp at h
          · split at h
            · simp at h
            · simp only [Except.ok.injEq, Prod.mk.injEq] at h
              exact absurd h.1 (by simp)

theorem next_batch_error_message (parse : List Nat → Except ProtobufError Transaction)
    (p : SignedBatchProducer) (err : BatchingError)
    (h : SignedBatchProducer.next_batch parse p = .error err) :
    ∃ e, err = .MessageError e := by
  unfold SignedBatchProducer.next_batch at h
  split at h
  · simp only [Except.error.injEq] at h
    exact ⟨_, h.symm⟩
  · split at h
    · simp at h
    · simp at h

theorem ldms_next_fail_head {T : Type} (parse : List Nat → Except ProtobufError T)
    (bs : List Nat) (hne : bs ≠ []) (hf : frame_decode_fails parse bs = true) (k : Nat) :
    ∃ e, LengthDelimitedMessageSource.next parse ⟨bs⟩ (k + 1) = .error e := by
  have hempty : (⟨bs⟩ : LengthDelimitedMessageSource T).source.isEmpty = false := by
    simpa [List.isEmpty_iff] using hne
  simp only [LengthDelimitedMessageSource.next, hempty, Bool.false_eq_true, if_false]
  unfold frame_decode_fails at hf
  cases hv : read_raw_varint32 bs with
  | error e =>
    simp only [hv]
    exact ⟨e, rfl⟩
  | ok v =>
    obtain ⟨n, rest⟩ := v
    simp only [hv] at hf ⊢
    cases hb : read_raw_bytes n rest with
    | error e =>
      simp only [hb]
      exact ⟨e, rfl⟩
    | ok w =>
      obtain ⟨buf, rest2⟩ := w
      simp only [hb] at hf ⊢
      cases hp : parse buf with
      | error e =>
        simp only [hp]
        exact ⟨e, rfl⟩
      | ok t =>
        simp only [hp] at hf
        exact absurd hf (by simp)

/-! The claims. -/

/-- C1: for every valid length-delimited input stream and every
`max_batch_size ≥ 1`, the run of `generate_signed_batches` (with a collecting
sink and enough fuel) succeeds, and the concatenation, in emission order, of
the produced batches' transaction lists equals the input transaction list —
nothing duplicated, dropped, reordered, or modified; equivalently the
concatenated `transaction_ids` of the batch headers reproduce the input
transactions' header signatures in order. -/
theorem claim_C1_order_preservation
    (parse : List Nat → Except ProtobufError Transaction)
    (enc : Transaction → List Nat) (ts : List Transaction) (m fuel : Nat)
    (hm : 1 ≤ m) (hfuel : ts.length < fuel)
    (hp : ∀ t ∈ ts, parse (enc t) = .ok t)
    (hl : ∀ t ∈ ts, (enc t).length < 2 ^ 32) :
    ∃ batches : List Batch,
      generate_signed_batches parse collect_writer fuel
          (SignedBatchProducer.new (encode_stream enc ts) m) [] =
        some (.ok batches) ∧
      listJoin (batches.map Batch.transactions) = ts ∧
      listJoin (batches.map (fun b => (parse_batch_header b.header).transaction_ids)) =
        ts.map Transaction.header_signature := by
  refine ⟨(chunkList m ts).map mkBatchOf, ?_, ?_, ?_⟩
  · have := generate_run parse enc m hm fuel ts [] hfuel hp hl
    simpa using this
  · rw [List.map_map]
    have hcomp : (Batch.transactions ∘ mkBatchOf) = id := by
      funext l
      rfl
    rw [hcomp, List.map_id]
    exact listJoin_chunkList m ts
  · rw [List.map_map]
    have hcomp : ((fun b => (parse_batch_header b.header).transaction_ids) ∘ mkBatchOf) =
        List.map Transaction.header_signature := by
      funext l
      rfl
    rw [hcomp, listJoin_map_map, listJoin_chunkList]

theorem claim_C1_witness :
    (1 ≤ 2) ∧ (demoTs.length < 4) ∧
    (∀ t ∈ demoTs, demoParse (demoEnc t) = .ok t) ∧
    (∀ t ∈ demoTs, (demoEnc t).length < 2 ^ 32) ∧
    (∃ batches : List Batch,
      generate_signed_batches demoParse collect_writer 4
          (SignedBatchProducer.new (encode_stream demoEnc demoTs) 2) [] =
        some (.ok batches) ∧
      listJoin (batches.map Batch.transactions) = demoTs ∧
      listJoin (batches.map (fun b => (parse_batch_header b.header).transaction_ids)) =
        demoTs.map Transaction.header_signature) :=
  ⟨by decide, by decide, by decide, by decide,
    claim_C1_order_preservation demoParse demoEnc demoTs 2 4
      (by decide) (by decide) (by decide) (by decide)⟩

/-- C2: with `max_batch_size = m ≥ 1` and `n` input transactions, the run
produces exactly `⌈n/m⌉` batches (0 when `n = 0`), every batch but the last
has exactly `m` transactions, and the last has `n % m` when that is nonzero,
otherwise `m`. -/
theorem claim_C2_size_partition
    (parse : List Nat → Except ProtobufError Transaction)
    (enc : Transaction → List Nat) (ts : List Transaction) (m fuel : Nat)
    (hm : 1 ≤ m) (hfuel : ts.length < fuel)
    (hp : ∀ t ∈ ts, parse (enc t) = .ok t)
    (hl : ∀ t ∈ ts, (enc t).length < 2 ^ 32) :
    ∃ batches : List Batch,
      generate_signed_batches parse collect_writer fuel
          (SignedBatchProducer.new (encode_stream enc ts) m) [] =
        some (.ok batches) ∧
      batches.length = (ts.length + m - 1) / m ∧
      (∀ (i : Nat) (h : i + 1 < batches.length),
        ((batches.get ⟨i, Nat.lt_of_succ_lt h⟩).transactions).length = m) ∧
      (∀ h : 0 < batches.length,
        ((batches.get ⟨batches.length - 1, by omega⟩).transactions).length =
          if ts.length % m = 0 then m else ts.length % m) := by
  refine ⟨(chunkList m ts).map mkBatchOf, ?_, ?_, ?_, ?_⟩
  · have := generate_run parse enc m hm fuel ts [] hfuel hp hl
    simpa using this
  · rw [List.length_map, chunkList_length m hm]
  · intro i h
    rw [List.length_map] at h
    obtain ⟨c, hc, hcl⟩ := chunkList_get?_length m hm ts i h
    have hi : i < (chunkList m ts).length := by omega
    have hg : (chunkList m ts).get ⟨i, hi⟩ = c := by
      have hge := List.get?_eq_get hi
      rw [hc] at hge
      exact (Option.some.inj hge).symm
    simp only [List.get_eq_getElem, List.getElem_map, mkBatchOf]
    simp only [List.get_eq_getElem] at hg
    rw [hg]
    exact hcl
  · intro h
    rw [List.length_map] at h
    obtain ⟨c, hc, hcl⟩ := chunkList_last?_length m hm ts h
    have hi : (chunkList m ts).length - 1 < (chunkList m ts).length := by omega
    have hg : (chunkList m ts).get ⟨(chunkList m ts).length - 1, hi⟩ = c := by
      have hge := List.get?_eq_get hi
      rw [hc] at hge
      exact (Option.some.inj hge).symm
    simp only [List.get_eq_getElem, List.getElem_map, List.length_map, mkBatchOf]
    simp only [List.get_eq_getElem] at hg
    rw [hg]
    exact hcl

theorem claim_C2_witness :
    (1 ≤ 2) ∧ (demoTs.length < 4) ∧
    (∀ t ∈ demoTs, demoParse (demoEnc t) = .ok t) ∧
    (∀ t ∈ demoTs, (demoEnc t).length < 2 ^ 32) ∧
    (∃ batches : List Batch,
      generate_signed_batches demoParse collect_writer 4
          (SignedBatchProducer.new (encode_stream demoEnc demoTs) 2) [] =
        some (.ok batches) ∧
      batches.length = (demoTs.length + 2 - 1) / 2 ∧
      (∀ (i : Nat) (h : i + 1 < batches.length),
        ((batches.get ⟨i, Nat.lt_of_succ_lt h⟩).transactions).length = 2) ∧
      (∀ h : 0 < batches.length,
        ((batches.get ⟨batches.length - 1, by omega⟩).transactions).length =
          if demoTs.length % 2 = 0 then 2 else demoTs.length % 2)) :=
  ⟨by decide, by decide, by decide, by decide,
    claim_C2_size_partition demoParse demoEnc demoTs 2 4
      (by decide) (by decide) (by decide) (by decide)⟩

/-- C3: with `max_count = k` and a valid source of `n ≥ k` messages, one call
to `next` returns exactly the first `k` messages in order, and a second call
on the resulting reader returns the next `min(k, n-k)` messages; the two
results concatenate to the first `k + k` input messages, so nothing already
consumed is re-read. -/
theorem claim_C3_bounded_pull {T : Type}
    (parse : List Nat → Except ProtobufError T) (enc : T → List Nat)
    (msgs : List T) (k : Nat) (hk : k ≤ msgs.length)
    (hp : ∀ t ∈ msgs, parse (enc t) = .ok t)
    (hl : ∀ t ∈ msgs, (enc t).length < 2 ^ 32) :
    LengthDelimitedMessageSource.next parse
        (LengthDelimitedMessageSource.new T (encode_stream enc msgs)) k =
      .ok (msgs.take k, ⟨encode_stream enc (msgs.drop k)⟩) ∧
    (msgs.take k).length = k ∧
    LengthDelimitedMessageSource.next parse ⟨encode_stream enc (msgs.drop k)⟩ k =
      .ok ((msgs.drop k).take k, ⟨encode_stream enc ((msgs.drop k).drop k)⟩) ∧
    ((msgs.drop k).take k).length = min k (msgs.length - k) ∧
    msgs.take k ++ (msgs.drop k).take k = msgs.take (k + k) := by
  refine ⟨?_, ?_, ?_, ?_, ?_⟩
  · exact ldms_next_encode parse enc msgs k hp hl
  · rw [List.length_take]
    omega
  · exact ldms_next_encode parse enc (msgs.drop k) k
      (fun x hx => hp x (List.drop_subset _ _ hx))
      (fun x hx => hl x (List.drop_subset _ _ hx))
  · rw [List.length_take, List.length_drop]
  · rw [List.take_add]

theorem claim_C3_witness :
    (2 ≤ demoTs.length) ∧
    (∀ t ∈ demoTs, demoParse (demoEnc t) = .ok t) ∧
    (∀ t ∈ demoTs, (demoEnc t).length < 2 ^ 32) ∧
    (LengthDelimitedMessageSource.next demoParse
        (LengthDelimitedMessageSource.new Transaction (encode_stream demoEnc demoTs)) 2 =
      .ok (demoTs.take 2, ⟨encode_stream demoEnc (demoTs.drop 2)⟩) ∧
    (demoTs.take 2).length = 2 ∧
    LengthDelimitedMessageSource.next demoParse ⟨encode_stream demoEnc (demoTs.drop 2)⟩ 2 =
      .ok ((demoTs.drop 2).take 2, ⟨encode_stream demoEnc ((demoTs.drop 2).drop 2)⟩) ∧
    ((demoTs.drop 2).take 2).length = min 2 (demoTs.length - 2) ∧
    demoTs.take 2 ++ (demoTs.drop 2).take 2 = demoTs.take (2 + 2)) :=
  ⟨by decide, by decide, by decide,
    claim_C3_bounded_pull demoParse demoEnc demoTs 2 (by decide) (by decide) (by decide)⟩

/-- C4: if, within one call to `next`, decoding a record fails — a bad length
prefix, a payload shorter than declared, or a payload the parser rejects —
the whole call returns an error, and the messages already decoded within that
call (here the valid prefix `ts`) are not returned: the result is an error,
never a partial sequence. -/
theorem claim_C4_error_abort {T : Type}
    (parse : List Nat → Except ProtobufError T) (enc : T → List Nat)
    (ts : List T) (tail : List Nat) (k : Nat)
    (hk : ts.length < k) (htail : tail ≠ [])
    (hfail : frame_decode_fails parse tail = true)
    (hp : ∀ t ∈ ts, parse (enc t) = .ok t)
    (hl : ∀ t ∈ ts, (enc t).length < 2 ^ 32) :
    ∃ e, LengthDelimitedMessageSource.next parse ⟨encode_stream enc ts ++ tail⟩ k =
      .error e := by
  have hge := ldms_next_encode_ge parse enc ts k tail (by omega) hp hl
  obtain ⟨j, hj⟩ : ∃ j, k - ts.length = j + 1 := ⟨k - ts.length - 1, by omega⟩
  rw [hj] at hge
  obtain ⟨e, he⟩ := ldms_next_fail_head parse tail htail hfail j
  rw [he] at hge
  refine ⟨e, ?_⟩
  rw [hge]
  rfl

theorem claim_C4_witness :
    (([demoTxn "sig1"] : List Transaction).length < 2) ∧ (([200] : List Nat) ≠ []) ∧
    (frame_decode_fails demoParse [200] = true) ∧
    (∀ t ∈ [demoTxn "sig1"], demoParse (demoEnc t) = .ok t) ∧
    (∀ t ∈ [demoTxn "sig1"], (demoEnc t).length < 2 ^ 32) ∧
    (∃ e, LengthDelimitedMessageSource.next demoParse
        ⟨encode_stream demoEnc [demoTxn "sig1"] ++ [200]⟩ 2 = .error e) :=
  ⟨by decide, by decide, by decide, by decide, by decide,
    claim_C4_error_abort demoParse demoEnc [demoTxn "sig1"] [200] 2
      (by decide) (by decide) (by decide) (by decide) (by decide)⟩

/-- C5: every batch returned as `Ok(Some(batch))` by `next_batch` with
`max_batch_size ≥ 1` holds between 1 and `max_batch_size` transactions;
a zero-transaction batch is never emitted (that pull is reported as
`Ok(None)` instead). -/
theorem claim_C5_batch_size_bounds
    (parse : List Nat → Except ProtobufError Transaction)
    (p p' : SignedBatchProducer) (batch : Batch)
    (_hm : 1 ≤ p.max_batch_size)
    (h : SignedBatchProducer.next_batch parse p = .ok (some batch, p')) :
    1 ≤ batch.transactions.length ∧
      batch.transactions.length ≤ p.max_batch_size := by
  unfold SignedBatchProducer.next_batch at h
  split at h
  · simp at h
  · rename_i txns src2 heq
    split at h
    · simp at h
    · rename_i hne
      simp only [Except.ok.injEq, Prod.mk.injEq, Option.some.injEq] at h
      obtain ⟨hbatch, _⟩ := h
      have hle := ldms_next_length_le parse p.max_batch_size _ _ _ heq
      have hbt : batch.transactions = txns := by rw [← hbatch]
      rw [hbt]
      constructor
      · omega
      · exact hle

theorem claim_C5_witness :
    (1 ≤ (SignedBatchProducer.new [1, 1] 1).max_batch_size) ∧
    (SignedBatchProducer.next_batch demoParse (SignedBatchProducer.new [1, 1] 1) =
      .ok (some (mkBatchOf [demoTxn "sig1"]), SignedBatchProducer.new [] 1)) ∧
    (1 ≤ (mkBatchOf [demoTxn "sig1"]).transactions.length ∧
      (mkBatchOf [demoTxn "sig1"]).transactions.length ≤
        (SignedBatchProducer.new [1, 1] 1).max_batch_size) :=
  ⟨by decide, by decide,
    claim_C5_batch_size_bounds demoParse (SignedBatchProducer.new [1, 1] 1)
      (SignedBatchProducer.new [] 1) (mkBatchOf [demoTxn "sig1"])
      (by decide) (by decide)⟩

/-- C6: for every batch emitted by `next_batch`, parsing its serialized
header yields a `BatchHeader` whose `transaction_ids` list is exactly the
pulled transactions' header signatures: equal as lists, hence of the same
length, and pointwise `transaction_ids[i] = transactions[i].header_signature`
in pull order. -/
theorem claim_C6_header_matches_transactions
    (parse : List Nat → Except ProtobufError Transaction)
    (p p' : SignedBatchProducer) (batch : Batch)
    (h : SignedBatchProducer.next_batch parse p = .ok (some batch, p')) :
    (parse_batch_header batch.header).transaction_ids =
      batch.transactions.map Transaction.header_signature ∧
    (parse_batch_header batch.header).transaction_ids.length =
      batch.transactions.length ∧
    ∀ (i : Nat) (h1 : i < (parse_batch_header batch.header).transaction_ids.length)
      (h2 : i < batch.transactions.length),
      (parse_batch_header batch.header).transaction_ids.get ⟨i, h1⟩ =
        (batch.transactions.get ⟨i, h2⟩).header_signature := by
  have hids : (parse_batch_header batch.header).transaction_ids =
      batch.transactions.map Transaction.header_signature := by
    unfold SignedBatchProducer.next_batch at h
    split at h
    · simp at h
    · rename_i txns src2 heq
      split at h
      · simp at h
      · simp only [Except.ok.injEq, Prod.mk.injEq, Option.some.injEq] at h
        obtain ⟨hbatch, _⟩ := h
        rw [← hbatch]
        rfl
  refine ⟨hids, ?_, ?_⟩
  · rw [hids, List.length_map]
  · intro i h1 h2
    have hcast := List.get_of_eq hids ⟨i, h1⟩
    rw [hcast]
    simp only [List.get_eq_getElem, List.getElem_map]

theorem claim_C6_witness :
    (SignedBatchProducer.next_batch demoParse (SignedBatchProducer.new [1, 1] 1) =
      .ok (some (mkBatchOf [demoTxn "sig1"]), SignedBatchProducer.new [] 1)) ∧
    ((parse_batch_header (mkBatchOf [demoTxn "sig1"]).header).transaction_ids =
      (mkBatchOf [demoTxn "sig1"]).transactions.map Transaction.header_signature ∧
    (parse_batch_header (mkBatchOf [demoTxn "sig1"]).header).transaction_ids.length =
      (mkBatchOf [demoTxn "sig1"]).transactions.length ∧
    ∀ (i : Nat)
      (h1 : i < (parse_batch_header (mkBatchOf [demoTxn "sig1"]).header).transaction_ids.length)
      (h2 : i < (mkBatchOf [demoTxn "sig1"]).transactions.length),
      (parse_batch_header (mkBatchOf [demoTxn "sig1"]).header).transaction_ids.get ⟨i, h1⟩ =
        ((mkBatchOf [demoTxn "sig1"]).transactions.get ⟨i, h2⟩).header_signature) :=
  ⟨by decide,
    claim_C6_header_matches_transactions demoParse (SignedBatchProducer.new [1, 1] 1)
      (SignedBatchProducer.new [] 1) (mkBatchOf [demoTxn "sig1"]) (by decide)⟩

theorem next_batch_none_of_zero (parse : List Nat → Except ProtobufError Transaction)
    (p : SignedBatchProducer) (hk : p.max_batch_size = 0) :
    SignedBatchProducer.next_batch parse p = .ok (none, p) := by
  obtain ⟨⟨src⟩, m⟩ := p
  simp only at hk
  subst hk
  rfl

theorem next_batch_none_of_nil_source (parse : List Nat → Except ProtobufError Transaction)
    (p : SignedBatchProducer) (hsrc : p.transaction_source.source = []) :
    SignedBatchProducer.next_batch parse p = .ok (none, p) := by
  obtain ⟨⟨src⟩, m⟩ := p
  simp only at hsrc
  subst hsrc
  unfold SignedBatchProducer.next_batch
  rw [show ({ transaction_source := ⟨[]⟩, max_batch_size := m } :
        SignedBatchProducer).transaction_source = ⟨[]⟩ from rfl,
    show ({ transaction_source := ⟨[]⟩, max_batch_size := m } :
        SignedBatchProducer).max_batch_size = m from rfl,
    ldms_next_nil_source]
  rfl

/-- C7: once `next_batch` returns `Ok(None)` (the pull yielded zero
transactions), the producer state is unchanged and every subsequent call
returns `Ok(None)` again: exhaustion is absorbing. -/
theorem claim_C7_exhaustion_absorbing
    (parse : List Nat → Except ProtobufError Transaction)
    (p p' : SignedBatchProducer)
    (h : SignedBatchProducer.next_batch parse p = .ok (none, p')) :
    p' = p ∧ SignedBatchProducer.next_batch parse p' = .ok (none, p') := by
  unfold SignedBatchProducer.next_batch at h
  split at h
  · simp at h
  · rename_i txns src2 heq
    split at h
    · rename_i hzero
      simp only [Except.ok.injEq, Prod.mk.injEq] at h
      obtain ⟨_, hps⟩ := h
      have htxns : txns = [] := List.length_eq_zero.mp hzero
      subst htxns
      obtain ⟨hsrc, hcase⟩ := ldms_next_ok_nil parse p.max_batch_size _ _ heq
      have hp2 : p' = p := by
        rw [← hps, hsrc]
      refine ⟨hp2, ?_⟩
      rw [hp2]
      rcases hcase with hk0 | hsrc_nil
      · exact next_batch_none_of_zero parse p hk0
      · exact next_batch_none_of_nil_source parse p hsrc_nil
    · simp at h

theorem claim_C7_witness :
    (SignedBatchProducer.next_batch demoParse (SignedBatchProducer.new [] 2) =
      .ok (none, SignedBatchProducer.new [] 2)) ∧
    (SignedBatchProducer.new [] 2 = SignedBatchProducer.new [] 2 ∧
      SignedBatchProducer.next_batch demoParse (SignedBatchProducer.new [] 2) =
        .ok (none, SignedBatchProducer.new [] 2)) :=
  ⟨by decide,
    claim_C7_exhaustion_absorbing demoParse (SignedBatchProducer.new [] 2)
      (SignedBatchProducer.new [] 2) (by decide)⟩

/-- C8: neither `next_batch` nor any fuelled run of `generate_signed_batches`
ever produces `BatchingError::SigningError` — that variant is reserved and
unraised, for every parser, producer state, sink, and fuel. -/
theorem claim_C8_no_signing_error {W : Type}
    (parse : List Nat → Except ProtobufError Transaction)
    (write_batch : W → Batch → Except ProtobufError W)
    (p : SignedBatchProducer) (w : W) (fuel : Nat) :
    batching_result_signing (SignedBatchProducer.next_batch parse p) = false ∧
    run_raises_signing (generate_signed_batches parse write_batch fuel p w) = false := by
  constructor
  · cases h : SignedBatchProducer.next_batch parse p with
    | error err =>
      obtain ⟨e, rfl⟩ := next_batch_error_message parse p err h
      rfl
    | ok v => rfl
  · induction fuel generalizing p w with
    | zero => rfl
    | succ fuel ih =>
      simp only [generate_signed_batches]
      cases h : SignedBatchProducer.next_batch parse p with
      | error err =>
        obtain ⟨e, rfl⟩ := next_batch_error_message parse p err h
        rfl
      | ok v =>
        obtain ⟨ob, p2⟩ := v
        cases ob with
        | none => rfl
        | some batch =>
          dsimp only
          cases hw : write_batch w batch with
          | error e => rfl
          | ok w2 => exact ih p2 w2

/-- C9 counterexample: the claim asserts that with `max_batch_size = 0` over
a non-empty source the drive loop runs forever; in fact a zero-message pull
is treated as exhaustion, so over the non-empty source `[1, 1]` `next_batch`
returns `Ok(None)` immediately and `generate_signed_batches` terminates with
`Ok` within a single loop iteration. -/
theorem claim_C9_counterexample :
    SignedBatchProducer.next_batch demoParse (SignedBatchProducer.new [1, 1] 0) =
      .ok (none, SignedBatchProducer.new [1, 1] 0) ∧
    generate_signed_batches demoParse collect_writer 1
        (SignedBatchProducer.new [1, 1] 0) [] = some (.ok []) := by
  constructor
  · rfl
  · rfl

/-- C9 amended: with `max_batch_size = 0` every pull requests zero messages
and returns an empty vector, so `next_batch` reports exhaustion (`Ok(None)`)
immediately — even over a non-empty, never-consumed source — and
`generate_signed_batches` terminates at once with `Ok`, for any source,
sink, and positive fuel. -/
theorem claim_C9_amended {W : Type}
    (parse : List Nat → Except ProtobufError Transaction)
    (write_batch : W → Batch → Except ProtobufError W)
    (bs : List Nat) (w : W) (fuel : Nat) :
    SignedBatchProducer.next_batch parse (SignedBatchProducer.new bs 0) =
      .ok (none, SignedBatchProducer.new bs 0) ∧
    generate_signed_batches parse write_batch (fuel + 1)
        (SignedBatchProducer.new bs 0) w = some (.ok w) := by
  have h1 := next_batch_none_of_zero parse (SignedBatchProducer.new bs 0) rfl
  refine ⟨h1, ?_⟩
  simp only [generate_signed_batches, h1]

/-- C10: when writing a produced batch to the sink fails, the drive loop
returns that failure wrapped as `BatchingError::MessageError` (the same
variant as input decode failures) immediately, regardless of remaining fuel. -/
theorem claim_C10_write_failure_aborts {W : Type}
    (parse : List Nat → Except ProtobufError Transaction)
    (write_batch : W → Batch → Except ProtobufError W)
    (p p' : SignedBatchProducer) (batch : Batch) (w : W) (e : ProtobufError)
    (fuel : Nat)
    (hnb : SignedBatchProducer.next_batch parse p = .ok (some batch, p'))
    (hw : write_batch w batch = .error e) :
    generate_signed_batches parse write_batch (fuel + 1) p w =
      some (.error (.MessageError e)) := by
  simp only [generate_signed_batches, hnb, hw]

theorem claim_C10_witness :
    (SignedBatchProducer.next_batch demoParse (SignedBatchProducer.new [1, 1] 1) =
      .ok (some (mkBatchOf [demoTxn "sig1"]), SignedBatchProducer.new [] 1)) ∧
    (failing_writer () (mkBatchOf [demoTxn "sig1"]) = .error .wireError) ∧
    (generate_signed_batches demoParse failing_writer 1
        (SignedBatchProducer.new [1, 1] 1) () =
      some (.error (.MessageError .wireError))) :=
  ⟨by decide, by decide,
    claim_C10_write_failure_aborts demoParse failing_writer
      (SignedBatchProducer.new [1, 1] 1) (SignedBatchProducer.new [] 1)
      (mkBatchOf [demoTxn "sig1"]) () ProtobufError.wireError 0
      (by decide) (by decide)⟩
